import Mathlib

/-!
Shallow embedding of `src/api/trace.py` (class `TransactionTracer`).

The Python code performs a breadth-first backward trace of a cryptocurrency
address's funding history against an external data source.  We model:

* the external data source (`Env`): `addrFetch` models a successful HTTP
  fetch of an address's transaction list (`none` = transport failure, in
  which case the Python wrapper returns `[]` without caching), and `txFetch`
  models a fetch of a transaction's detail record (`none` = transport
  failure, in which case the wrapper returns the falsy `{}` without caching);
* the per-instance caches (`Cache`, Python `address_cache` / `tx_cache`),
  modelled as association lists where insertion conses to the front;
* the two fetch wrappers `get_address_transactions` / `get_transaction`,
  each additionally reporting whether the data source was contacted;
* `is_coinbase`, `trace_lineage` and its BFS loop.  The Python `while` loop
  is modelled by the fuel-indexed `traceLoop`; every universal theorem below
  is quantified over the fuel, and concrete runs use ample fuel.

Python dict-key optionality is modelled with `Option` (a key that may be
absent, or present with a null value, becomes an `Option` field).  Sets
(`visited_txs`, `visited_addresses`) are modelled as insertion-ordered
duplicate-free lists, which the invariants below establish.
-/

namespace CryptoTrace

/-- An input's `prevout` object: the funding output's address and value
(Python `inp['prevout']['scriptpubkey_address']`, `inp['prevout'].get('value')`). -/
structure Prevout where
  scriptpubkey_address : Option String
  value : Option Nat
deriving DecidableEq, Repr

/-- One entry of a transaction's `vin` list.  `txid` is the reference to the
prior transaction (absent for coinbase inputs); `prevout` carries the funding
output when present. -/
structure VinEntry where
  txid : Option String
  prevout : Option Prevout
deriving DecidableEq, Repr

/-- A fetched transaction detail record.  `vin = none` models a dict without
the `'vin'` key; the other fields model `status.block_time`, `size`, `fee`. -/
structure Tx where
  vin : Option (List VinEntry)
  block_time : Option Nat
  size : Option Nat
  fee : Option Nat
deriving DecidableEq, Repr

/-- The external ledger data source.  `addrFetch a = none` / `txFetch t = none`
model a `requests` transport failure for that key. -/
structure Env where
  addrFetch : String → Option (List String)
  txFetch : String → Option Tx

/-- The tracer instance's memoization dictionaries
(Python `self.address_cache`, `self.tx_cache`). -/
structure Cache where
  address_cache : List (String × List String)
  tx_cache : List (String × Tx)
deriving DecidableEq, Repr

/-- Python `TransactionTracer.get_address_transactions`: cache lookup, else
fetch; a successful fetch (even an empty list) is stored, a failed fetch
returns `[]` without storing.  The third component records whether the data
source was contacted. -/
def get_address_transactions (env : Env) (c : Cache) (a : String) :
    List String × Cache × Bool :=
  match c.address_cache.lookup a with
  | some txs => (txs, c, false)
  | none =>
    match env.addrFetch a with
    | some txs => (txs, { c with address_cache := (a, txs) :: c.address_cache }, true)
    | none => ([], c, true)

/-- Python `TransactionTracer.get_transaction`: cache lookup, else fetch;
a successful fetch is stored, a failed fetch returns the falsy `{}`
(modelled `none`) without storing.  Third component: data source contacted. -/
def get_transaction (env : Env) (c : Cache) (t : String) :
    Option Tx × Cache × Bool :=
  match c.tx_cache.lookup t with
  | some tx => (some tx, c, false)
  | none =>
    match env.txFetch t with
    | some tx => (some tx, { c with tx_cache := (t, tx) :: c.tx_cache }, true)
    | none => (none, c, true)

/-- Python `TransactionTracer.is_coinbase`: `False` on a falsy/absent record
or a record without `'vin'`; `True` exactly when `vin` has a single entry
whose `'txid'` key is absent. -/
def is_coinbase (tx : Option Tx) : Bool :=
  match tx with
  | none => false
  | some t =>
    match t.vin with
    | some [v] => v.txid.isNone
    | _ => false

/-- Python `f"{address[:8]}...{address[-8:]}"`. -/
def addrLabel (a : String) : String :=
  String.mk (a.data.take 8) ++ "..." ++ String.mk (a.data.drop (a.data.length - 8))

/-- Python `f"TX: {txid[:8]}..."`. -/
def txLabel (t : String) : String :=
  "TX: " ++ String.mk (t.data.take 8) ++ "..."

/-- A graph node: either an address node (root carries `is_target = some true`,
others omit the key) or a transaction node. -/
inductive Node where
  | addr (id : String) (label : String) (depth : Nat) (is_target : Option Bool)
  | tx (id : String) (label : String) (depth : Nat) (is_coinbase : Bool)
      (timestamp : Option Nat) (size : Option Nat) (fee : Option Nat)
deriving DecidableEq, Repr

/-- Node identifier. -/
def Node.nid : Node → String
  | .addr i _ _ _ => i
  | .tx i _ _ _ _ _ _ => i

/-- Node discovery depth. -/
def Node.ndepth : Node → Nat
  | .addr _ _ d _ => d
  | .tx _ _ d _ _ _ _ => d

/-- A graph edge; Python key `'type'` is modelled by `etype`; output edges
have no `'amount'` key (`none`), input edges carry `some (prevout value)`. -/
structure Edge where
  source : String
  target : String
  etype : String
  amount : Option (Option Nat)
deriving DecidableEq, Repr

/-- The `stats` dictionary. -/
structure Stats where
  total_addresses : Nat
  total_transactions : Nat
  max_depth_reached : Nat
  coinbase_found : Bool
  coinbase_distance : Option Nat
deriving DecidableEq, Repr

/-- A BFS queue entry `(address_or_txid, depth, node_type)`. -/
structure QItem where
  qid : String
  qdepth : Nat
  qtype : String
deriving DecidableEq, Repr

/-- The mutable state of one `trace_lineage` invocation (plus the instance
caches, which the traversal threads through). -/
structure TraceState where
  nodes : List Node
  edges : List Edge
  visited_txs : List String
  visited_addresses : List String
  queue : List QItem
  stats : Stats
  cache : Cache
deriving DecidableEq, Repr

/-- The returned dictionary of `trace_lineage`. -/
structure TraceResult where
  nodes : List Node
  edges : List Edge
  stats : Stats
  target_address : String
deriving DecidableEq, Repr

/-- The body of the `for inp in tx_details.get('vin', [])` loop: follow an
input's `prevout` address if present and unvisited — note there is no
address-budget check here. -/
def processVin (txid : String) (depth : Nat) (st : TraceState) (inp : VinEntry) :
    TraceState :=
  match inp.prevout with
  | none => st
  | some p =>
    match p.scriptpubkey_address with
    | none => st
    | some prev_address =>
      if prev_address ∈ st.visited_addresses then st
      else
        { st with
          visited_addresses := st.visited_addresses ++ [prev_address]
          stats := { st.stats with total_addresses := st.stats.total_addresses + 1 }
          nodes := st.nodes ++
            [Node.addr prev_address (addrLabel prev_address) (depth + 1) none]
          edges := st.edges ++ [⟨prev_address, txid, "input", some p.value⟩]
          queue := st.queue ++ [⟨prev_address, depth + 1, "address"⟩] }

/-- The body of the `for tx in txs` loop: dedup by id, count, fetch detail
(skipping entirely on failure), record coinbase stats, add the node and its
output edge, and expand inputs when not coinbase and below `max_depth`.
Note `total_transactions` is incremented before the detail fetch. -/
def processTx (env : Env) (max_depth : Nat) (current_id : String) (depth : Nat)
    (st : TraceState) (txid : String) : TraceState :=
  if txid ∈ st.visited_txs then st
  else
    let st1 := { st with
      visited_txs := st.visited_txs ++ [txid]
      stats := { st.stats with
        total_transactions := st.stats.total_transactions + 1 } }
    let r := get_transaction env st1.cache txid
    let st2 := { st1 with cache := r.2.1 }
    match r.1 with
    | none => st2
    | some td =>
      let cb := is_coinbase (some td)
      let st3 := { st2 with stats :=
        if cb then
          { st2.stats with
            coinbase_found := true
            coinbase_distance :=
              match st2.stats.coinbase_distance with
              | none => some depth
              | some k => some k }
        else st2.stats }
      let st4 := { st3 with
        nodes := st3.nodes ++
          [Node.tx txid (txLabel txid) depth cb td.block_time td.size td.fee]
        edges := st3.edges ++ [⟨txid, current_id, "output", none⟩] }
      if !cb && decide (depth < max_depth) then
        (td.vin.getD []).foldl (processVin txid depth) st4
      else st4

/-- One dequeued item's processing (after the `depth > max_depth` check):
update `max_depth_reached`, and for an address item fetch its transaction
list and run the transaction loop. -/
def processItem (env : Env) (max_depth : Nat) (st : TraceState) (item : QItem) :
    TraceState :=
  let st0 := { st with stats := { st.stats with
    max_depth_reached := max st.stats.max_depth_reached item.qdepth } }
  if item.qtype = "address" then
    let r := get_address_transactions env st0.cache item.qid
    let st1 := { st0 with cache := r.2.1 }
    r.1.foldl (processTx env max_depth item.qid item.qdepth) st1
  else st0

/-- The `while queue and len(visited_addresses) < self.max_addresses` loop,
indexed by fuel (each recursive call is one iteration; the Python loop always
terminates because enqueued addresses are distinct, and every theorem below
quantifies over the fuel). -/
def traceLoop (env : Env) (max_depth max_addresses : Nat) :
    Nat → TraceState → TraceState
  | 0, st => st
  | fuel + 1, st =>
    match st.queue with
    | [] => st
    | item :: rest =>
      if st.visited_addresses.length < max_addresses then
        let st1 := { st with queue := rest }
        if item.qdepth > max_depth then
          traceLoop env max_depth max_addresses fuel st1
        else
          traceLoop env max_depth max_addresses fuel (processItem env max_depth st1 item)
      else st

/-- The state set up by `trace_lineage` before the loop: root marked visited,
root node appended, seed queue item at depth 0, zeroed statistics, fresh
caches (the Python caches belong to the instance; the front door constructs a
fresh instance per trace). -/
def initState (address : String) : TraceState :=
  { nodes := [Node.addr address (addrLabel address) 0 (some true)]
    edges := []
    visited_txs := []
    visited_addresses := [address]
    queue := [⟨address, 0, "address"⟩]
    stats := ⟨0, 0, 0, false, none⟩
    cache := ⟨[], []⟩ }

/-- Full final traversal state of `trace_lineage`. -/
def traceFinal (env : Env) (max_depth max_addresses fuel : Nat) (address : String) :
    TraceState :=
  traceLoop env max_depth max_addresses fuel (initState address)

/-- Python `trace_lineage`'s returned dictionary. -/
def trace_lineage (env : Env) (max_depth max_addresses fuel : Nat)
    (address : String) : TraceResult :=
  let st := traceFinal env max_depth max_addresses fuel address
  ⟨st.nodes, st.edges, st.stats, address⟩

/-- Identifiers of the address nodes of a node list, in insertion order. -/
def addrIds (ns : List Node) : List String :=
  ns.filterMap fun n => match n with
    | .addr i _ _ _ => some i
    | _ => none

/-- Identifiers of the transaction nodes of a node list, in insertion order. -/
def txIds (ns : List Node) : List String :=
  ns.filterMap fun n => match n with
    | .tx i _ _ _ _ _ _ => some i
    | _ => none

/-- Depths of the coinbase-flagged transaction nodes, in insertion order. -/
def cbDepths (ns : List Node) : List Nat :=
  ns.filterMap fun n => match n with
    | .tx _ _ d true _ _ _ => some d
    | _ => none

/-- Sources of the `"output"` edges, in insertion order. -/
def outSources (es : List Edge) : List String :=
  es.filterMap fun e => if e.etype = "output" then some e.source else none

/-- There is an address node with this id at this depth. -/
def hasAddrNode (ns : List Node) (i : String) (d : Nat) : Prop :=
  ∃ lab tg, Node.addr i lab d tg ∈ ns

/-- There is a transaction node with this id at this depth. -/
def hasTxNode (ns : List Node) (i : String) (d : Nat) : Prop :=
  ∃ lab cb ts sz fe, Node.tx i lab d cb ts sz fe ∈ ns

/-- The origin predicate as the claim C5 words it: "no input references a
prior funding output, or there is exactly one input entirely lacking a
prior-transaction reference".  An input references a prior transaction via
its `txid` key.  Stated over the fetched record (claim follows the spec's
words; this is the spec-side definition to compare with `is_coinbase`). -/
def originClaimPredicate (t : Option Tx) : Prop :=
  ∃ td, t = some td ∧
    ((∀ v ∈ td.vin.getD [], v.txid = none) ∨
     ((td.vin.getD []).filter (fun v => v.txid.isNone)).length = 1)

/-- Closed form of a `max_depth = 0` traversal of the root's transaction
list: one transaction node (at depth 0) and one output edge per distinct
transaction id whose detail fetch succeeds.  `seen` accumulates the
already-visited transaction ids. -/
def depthZeroPass (env : Env) (cur : String) : List String → List String →
    List Node × List Edge
  | [], _ => ([], [])
  | t :: ts, seen =>
    if t ∈ seen then depthZeroPass env cur ts seen
    else
      match env.txFetch t with
      | none => depthZeroPass env cur ts (seen ++ [t])
      | some td =>
        let rest := depthZeroPass env cur ts (seen ++ [t])
        (Node.tx t (txLabel t) 0 (is_coinbase (some td)) td.block_time td.size td.fee
           :: rest.1,
         Edge.mk t cur "output" none :: rest.2)

/-- Number of inputs of a transaction's detail record as the data source
reports it (0 when the fetch fails). -/
def vinCount (env : Env) (t : String) : Nat :=
  match env.txFetch t with
  | some td => (td.vin.getD []).length
  | none => 0

/-- Bound on the number of addresses a single dequeued address item can add:
the total input count over the transactions in that address's list. -/
def addrGrowthBound (env : Env) (a : String) : Nat :=
  (((env.addrFetch a).getD []).map (vinCount env)).sum

/-- The caches only ever hold values the data source returned for that key. -/
def CacheOK (env : Env) (c : Cache) : Prop :=
  (∀ p ∈ c.address_cache, env.addrFetch p.1 = some p.2) ∧
  (∀ p ∈ c.tx_cache, env.txFetch p.1 = some p.2)

/-- Invariant fields shared by the loop-level and fold-level invariants of
the traversal.  `md` is `max_depth`. -/
structure Core (md : Nat) (st : TraceState) : Prop where
  addr_ids : addrIds st.nodes = st.visited_addresses
  vaddr_nodup : st.visited_addresses.Nodup
  vtx_nodup : st.visited_txs.Nodup
  tx_sub : ∀ i ∈ txIds st.nodes, i ∈ st.visited_txs
  tx_nodup : (txIds st.nodes).Nodup
  out_eq : outSources st.edges = txIds st.nodes
  total_tx : st.stats.total_transactions = st.visited_txs.length
  total_addr : st.stats.total_addresses + 1 = st.visited_addresses.length
  q_addr : ∀ it ∈ st.queue, it.qtype = "address" ∧ it.qdepth ≤ md ∧
    hasAddrNode st.nodes it.qid it.qdepth
  depth_le : ∀ n ∈ st.nodes, n.ndepth ≤ md
  edge_out : ∀ e ∈ st.edges, e.etype = "output" →
    ∃ d, hasTxNode st.nodes e.source d ∧ hasAddrNode st.nodes e.target d
  edge_in : ∀ e ∈ st.edges, e.etype = "input" →
    ∃ d, hasAddrNode st.nodes e.source (d + 1) ∧ hasTxNode st.nodes e.target d
  q_sorted : st.queue.Pairwise (fun x y => x.qdepth ≤ y.qdepth)
  cb_found : st.stats.coinbase_found = true ↔ cbDepths st.nodes ≠ []
  cb_none : st.stats.coinbase_distance = none → cbDepths st.nodes = []
  cb_min : ∀ k, st.stats.coinbase_distance = some k →
    k ∈ cbDepths st.nodes ∧ ∀ d ∈ cbDepths st.nodes, k ≤ d

/-- Loop-level invariant: holds before and after every loop iteration. -/
structure Inv (md : Nat) (st : TraceState) extends Core md st : Prop where
  q_near : ∀ x ∈ st.queue, ∀ y ∈ st.queue, x.qdepth ≤ y.qdepth + 1
  cb_q : ∀ k, st.stats.coinbase_distance = some k → ∀ it ∈ st.queue, k ≤ it.qdepth

/-- Fold-level invariant while the item `(cur, d)` is being expanded. -/
structure FInv (md : Nat) (cur : String) (d : Nat) (st : TraceState)
    extends Core md st : Prop where
  q_band : ∀ it ∈ st.queue, d ≤ it.qdepth ∧ it.qdepth ≤ d + 1
  cb_le : ∀ k, st.stats.coinbase_distance = some k → k ≤ d
  cur_node : hasAddrNode st.nodes cur d
  d_le : d ≤ md

/-- Fold-level invariant while the inputs of transaction `x` (discovered at
depth `d`) are being expanded. -/
structure VInv (md : Nat) (cur : String) (d : Nat) (x : String)
    (st : TraceState) extends FInv md cur d st : Prop where
  tx_node : hasTxNode st.nodes x d

/-- Data source on which every fetch fails. -/
def env0 : Env := ⟨fun _ => none, fun _ => none⟩

/-- The spec's end-to-end scenario: `R` has one transaction `T1` (non-origin,
funded by address `A` with amount 5000); `A` has one transaction `T2` which
is an origin transaction. -/
def envS : Env :=
  { addrFetch := fun a =>
      if a = "R" then some ["T1"]
      else if a = "A" then some ["T2"]
      else none
    txFetch := fun t =>
      if t = "T1" then
        some ⟨some [⟨some "x", some ⟨some "A", some 5000⟩⟩], some 1, some 2, some 3⟩
      else if t = "T2" then some ⟨some [⟨none, none⟩], some 4, some 5, some 6⟩
      else none }

/-- Root `R` with a single transaction `t` funded by two distinct
addresses `B` and `C`. -/
def env1 : Env :=
  { addrFetch := fun a => if a = "R" then some ["t"] else none
    txFetch := fun t =>
      if t = "t" then
        some ⟨some [⟨some "p", some ⟨some "B", some 1⟩⟩,
                    ⟨some "p", some ⟨some "C", some 2⟩⟩], none, none, none⟩
      else none }

/-- Root `R` has one transaction `t1`, but every transaction-detail fetch
fails. -/
def env3 : Env :=
  { addrFetch := fun a => if a = "R" then some ["t1"] else none
    txFetch := fun _ => none }

/-- Root `R` has transaction `t1` funded by `A` and `B`; both `A` and `B`
list the same transaction `t2` (a shared ancestor). -/
def envAB : Env :=
  { addrFetch := fun a =>
      if a = "R" then some ["t1"]
      else if a = "A" then some ["t2"]
      else if a = "B" then some ["t2"]
      else none
    txFetch := fun t =>
      if t = "t1" then
        some ⟨some [⟨some "p", some ⟨some "A", some 7⟩⟩,
                    ⟨some "q", some ⟨some "B", some 8⟩⟩], none, none, none⟩
      else if t = "t2" then some ⟨some [⟨some "z", none⟩], none, none, none⟩
      else none }

/-! ## Helper lemmas -/

theorem foldl_rec {α σ : Type _} (P : σ → Prop) (f : σ → α → σ) (l : List α)
    (h : ∀ s a, a ∈ l → P s → P (f s a)) (s : σ) (hs : P s) : P (l.foldl f s) := by
  induction l generalizing s with
  | nil => exact hs
  | cons x xs ih =>
    exact ih (fun s a ha hp => h s a (List.mem_cons_of_mem _ ha) hp) _
      (h s x (List.mem_cons_self _ _) hs)

@[simp] theorem addrIds_append (l₁ l₂ : List Node) :
    addrIds (l₁ ++ l₂) = addrIds l₁ ++ addrIds l₂ :=
  List.filterMap_append ..

@[simp] theorem txIds_append (l₁ l₂ : List Node) :
    txIds (l₁ ++ l₂) = txIds l₁ ++ txIds l₂ :=
  List.filterMap_append ..

@[simp] theorem cbDepths_append (l₁ l₂ : List Node) :
    cbDepths (l₁ ++ l₂) = cbDepths l₁ ++ cbDepths l₂ :=
  List.filterMap_append ..

@[simp] theorem outSources_append (l₁ l₂ : List Edge) :
    outSources (l₁ ++ l₂) = outSources l₁ ++ outSources l₂ :=
  List.filterMap_append ..

@[simp] theorem addrIds_addr (i lab d tg) :
    addrIds [Node.addr i lab d tg] = [i] := rfl

@[simp] theorem addrIds_tx (i lab d cb ts sz fe) :
    addrIds [Node.tx i lab d cb ts sz fe] = [] := rfl

@[simp] theorem txIds_addr (i lab d tg) :
    txIds [Node.addr i lab d tg] = [] := rfl

@[simp] theorem txIds_tx (i lab d cb ts sz fe) :
    txIds [Node.tx i lab d cb ts sz fe] = [i] := rfl

@[simp] theorem cbDepths_addr (i lab d tg) :
    cbDepths [Node.addr i lab d tg] = [] := rfl

theorem cbDepths_tx (i lab d cb ts sz fe) :
    cbDepths [Node.tx i lab d cb ts sz fe] = if cb then [d] else [] := by
  cases cb <;> rfl

@[simp] theorem outSources_input (s t a) :
    outSources [Edge.mk s t "input" a] = [] := rfl

@[simp] theorem outSources_output (s t a) :
    outSources [Edge.mk s t "output" a] = [s] := rfl

theorem hasAddrNode_mono {ns ms : List Node} {i d} (h : hasAddrNode ns i d) :
    hasAddrNode (ns ++ ms) i d := by
  obtain ⟨lab, tg, hm⟩ := h
  exact ⟨lab, tg, List.mem_append_left _ hm⟩

theorem hasTxNode_mono {ns ms : List Node} {i d} (h : hasTxNode ns i d) :
    hasTxNode (ns ++ ms) i d := by
  obtain ⟨lab, cb, ts, sz, fe, hm⟩ := h
  exact ⟨lab, cb, ts, sz, fe, List.mem_append_left _ hm⟩

/-! ## Claim C5: origin (coinbase) detection -/

/-- C5 counterexample: a record whose `vin` list is empty has no input
referencing a prior funding output (the claim's first disjunct holds
vacuously), yet `is_coinbase` classifies it as not-origin: the claimed
"if and only if" fails at this record. -/
theorem c5_counterexample :
    is_coinbase (some ⟨some [], none, none, none⟩) = false ∧
    originClaimPredicate (some ⟨some [], none, none, none⟩) :=
  ⟨rfl, ⟨_, rfl, Or.inl (by simp)⟩⟩

/-- C5 amended: a fetched record is classified as origin iff it has a `vin`
key whose list consists of exactly one input and that input lacks a
prior-transaction reference (`txid`).  Records with zero inputs, or with
several reference-free inputs, are not classified as origin. -/
theorem c5_is_coinbase_iff (t : Option Tx) :
    is_coinbase t = true ↔ ∃ td v, t = some td ∧ td.vin = some [v] ∧ v.txid = none := by
  constructor
  · intro h
    match t with
    | none => simp [is_coinbase] at h
    | some td =>
      match hv : td.vin with
      | none => simp [is_coinbase, hv] at h
      | some [] => simp [is_coinbase, hv] at h
      | some [v] =>
        refine ⟨td, v, rfl, hv, ?_⟩
        simp [is_coinbase, hv, Option.isNone_iff_eq_none] at h
        exact h
      | some (v₁ :: v₂ :: vs) => simp [is_coinbase, hv] at h
  · rintro ⟨td, v, rfl, hv, hn⟩
    simp [is_coinbase, hv, hn]

/-! ## Claim C7: behaviour when the address budget is reached -/

/-- C7 counterexample: with budget 3, processing the root adds `A` (count 2,
strictly below the budget, so `A` is enqueued before the budget is reached)
and `B` (count 3 = budget).  The loop condition then fails, so `A` and `B`
remain enqueued and are never processed: the shared ancestor `t2` listed by
`A` is never discovered, refuting "every item already enqueued before the
budget was reached is still dequeued and processed". -/
theorem c7_counterexample :
    (traceFinal envAB 5 3 20 "R").queue =
      [⟨"A", 1, "address"⟩, ⟨"B", 1, "address"⟩] ∧
    txIds (traceFinal envAB 5 3 20 "R").nodes = ["t1"] := by decide

/-- C7 amended: the instant the visited-address count has reached
`max_addresses`, the traversal terminates: the loop condition fails before
any further item is dequeued, and the state is returned unchanged —
already-enqueued items are dropped, not drained. -/
theorem c7_budget_stops_loop (env : Env) (md b fuel : Nat) (st : TraceState)
    (h : b ≤ st.visited_addresses.length) :
    traceLoop env md b fuel st = st := by
  cases fuel with
  | zero => rfl
  | succ n =>
    unfold traceLoop
    match hq : st.queue with
    | [] => rfl
    | it :: rest => simp [Nat.not_lt.mpr h]

theorem c7_budget_stops_loop_witness :
    1 ≤ (initState "a").visited_addresses.length ∧
    traceLoop env0 5 1 9 (initState "a") = initState "a" :=
  ⟨by decide, c7_budget_stops_loop env0 5 1 9 (initState "a") (by decide)⟩

/-! ## Claim C8: fetch-wrapper memoization -/

/-- C8 counterexample: after a transport failure nothing is stored, so a
second request for the same key contacts the data source again (the third
component of the wrapper's result records a data-source contact). -/
theorem c8_counterexample :
    (get_address_transactions env0 ⟨[], []⟩ "a").2.2 = true ∧
    (get_address_transactions env0
      (get_address_transactions env0 ⟨[], []⟩ "a").2.1 "a").2.2 = true ∧
    (get_transaction env0 ⟨[], []⟩ "t").2.2 = true ∧
    (get_transaction env0
      (get_transaction env0 ⟨[], []⟩ "t").2.1 "t").2.2 = true := by decide

/-- C8 amended: a first *successful* call stores its result (even an empty
list), and any repeated request for the same key is then served from the
cache without contacting the data source; after a transport failure nothing
is stored, so only successful first calls guarantee the source is not
contacted twice. -/
theorem c8_memoize_after_success (env : Env) (c : Cache) (a t : String)
    (ha : (env.addrFetch a).isSome) (ht : (env.txFetch t).isSome) :
    (get_address_transactions env
        (get_address_transactions env c a).2.1 a =
      ((get_address_transactions env c a).1,
       (get_address_transactions env c a).2.1, false)) ∧
    (get_transaction env (get_transaction env c t).2.1 t =
      ((get_transaction env c t).1, (get_transaction env c t).2.1, false)) := by
  constructor
  · unfold get_address_transactions
    match hc : c.address_cache.lookup a with
    | some v => simp [hc]
    | none =>
      match hf : env.addrFetch a with
      | none => rw [hf] at ha; simp at ha
      | some txs => simp [hc, hf, List.lookup]
  · unfold get_transaction
    match hc : c.tx_cache.lookup t with
    | some v => simp [hc]
    | none =>
      match hf : env.txFetch t with
      | none => rw [hf] at ht; simp at ht
      | some tx => simp [hc, hf, List.lookup]

theorem c8_memoize_after_success_witness :
    (envS.addrFetch "R").isSome = true ∧ (envS.txFetch "T1").isSome = true ∧
    ((get_address_transactions envS
        (get_address_transactions envS ⟨[], []⟩ "R").2.1 "R" =
      ((get_address_transactions envS ⟨[], []⟩ "R").1,
       (get_address_transactions envS ⟨[], []⟩ "R").2.1, false)) ∧
    (get_transaction envS (get_transaction envS ⟨[], []⟩ "T1").2.1 "T1" =
      ((get_transaction envS ⟨[], []⟩ "T1").1,
       (get_transaction envS ⟨[], []⟩ "T1").2.1, false))) :=
  ⟨by decide, by decide,
    c8_memoize_after_success envS ⟨[], []⟩ "R" "T1" (by decide) (by decide)⟩

/-! ## Node list is append-only -/

theorem processVin_nodes_ext (x : String) (d : Nat) (st : TraceState) (v : VinEntry) :
    ∃ l, (processVin x d st v).nodes = st.nodes ++ l := by
  rcases hp : v.prevout with _ | p
  · exact ⟨[], by simp [processVin, hp]⟩
  · rcases ha : p.scriptpubkey_address with _ | a
    · exact ⟨[], by simp [processVin, hp, ha]⟩
    · by_cases hm : a ∈ st.visited_addresses
      · exact ⟨[], by simp [processVin, hp, ha, hm]⟩
      · exact ⟨[Node.addr a (addrLabel a) (d + 1) none],
          by simp [processVin, hp, ha, hm]⟩

theorem foldl_nodes_ext {α : Type _} (f : TraceState → α → TraceState)
    (hf : ∀ s a, ∃ l, (f s a).nodes = s.nodes ++ l) :
    ∀ (l : List α) (st : TraceState), ∃ l', (l.foldl f st).nodes = st.nodes ++ l' := by
  intro l
  induction l with
  | nil => exact fun st => ⟨[], by simp⟩
  | cons x xs ih =>
    intro st
    obtain ⟨l₁, h₁⟩ := hf st x
    obtain ⟨l₂, h₂⟩ := ih (f st x)
    exact ⟨l₁ ++ l₂, by simp [h₂, h₁]⟩

theorem foldl_nodes_ext_from {α : Type _} (f : TraceState → α → TraceState)
    (hf : ∀ s a, ∃ l, (f s a).nodes = s.nodes ++ l) (l : List α)
    (st S : TraceState) (base : List Node) (h : S.nodes = st.nodes ++ base) :
    ∃ l', (l.foldl f S).nodes = st.nodes ++ l' := by
  obtain ⟨l', h'⟩ := foldl_nodes_ext f hf l S
  exact ⟨base ++ l', by rw [h', h, List.append_assoc]⟩

theorem processTx_nodes_ext (env : Env) (md : Nat) (cur : String) (d : Nat)
    (st : TraceState) (t : String) :
    ∃ l, (processTx env md cur d st t).nodes = st.nodes ++ l := by
  by_cases hv : t ∈ st.visited_txs
  · exact ⟨[], by simp [processTx, hv]⟩
  · cases hr : (get_transaction env st.cache t).1 with
    | none => exact ⟨[], by simp [processTx, hv, hr]⟩
    | some td =>
      by_cases hg : (!is_coinbase (some td) && decide (d < md)) = true
      · simp only [processTx, hv, if_false, ite_false, if_neg, hr, hg, ite_true, if_pos]
        exact foldl_nodes_ext_from _ (processVin_nodes_ext t d) _ st _
          [Node.tx t (txLabel t) d (is_coinbase (some td)) td.block_time td.size td.fee]
          (by simp)
      · exact ⟨[Node.tx t (txLabel t) d (is_coinbase (some td)) td.block_time td.size
          td.fee], by simp [processTx, hv, hr, hg]⟩

theorem processItem_nodes_ext (env : Env) (md : Nat) (st : TraceState) (it : QItem) :
    ∃ l, (processItem env md st it).nodes = st.nodes ++ l := by
  by_cases ht : it.qtype = "address"
  · simp only [processItem, ht, ite_true, if_pos]
    exact foldl_nodes_ext_from _ (processTx_nodes_ext env md it.qid it.qdepth) _ st _
      [] (by simp)
  · exact ⟨[], by simp [processItem, ht]⟩

theorem traceLoop_nodes_ext (env : Env) (md b : Nat) :
    ∀ (fuel : Nat) (st : TraceState),
      ∃ l, (traceLoop env md b fuel st).nodes = st.nodes ++ l := by
  intro fuel
  induction fuel with
  | zero => exact fun st => ⟨[], by simp [traceLoop]⟩
  | succ n ih =>
    intro st
    unfold traceLoop
    match hq : st.queue with
    | [] => exact ⟨[], by simp⟩
    | it :: rest =>
      by_cases hb : st.visited_addresses.length < b
      · simp only [hb, if_true, if_pos]
        by_cases hd : it.qdepth > md
        · simpa [hd] using ih { st with queue := rest }
        · simp only [hd, if_false]
          obtain ⟨l₁, h₁⟩ := processItem_nodes_ext env md { st with queue := rest } it
          obtain ⟨l₂, h₂⟩ := ih (processItem env md { st with queue := rest } it)
          exact ⟨l₁ ++ l₂, by simp only [h₂, h₁]; simp [List.append_assoc]⟩
      · exact ⟨[], by simp [hb]⟩

/-! ## Claim C10: the root node always comes first -/

/-- C10: whatever the data source returns and for any limits (including an
address budget of 1, which prevents even the root item from being processed),
the node list is non-empty and its first element is the root address node at
depth 0 with `is_target` set to true: the node is appended before the loop
runs. -/
theorem c10_root_node_first (env : Env) (md b fuel : Nat) (a : String) :
    (trace_lineage env md b fuel a).nodes ≠ [] ∧
    (trace_lineage env md b fuel a).nodes.head? =
      some (Node.addr a (addrLabel a) 0 (some true)) := by
  obtain ⟨l, hl⟩ := traceLoop_nodes_ext env md b fuel (initState a)
  have : (trace_lineage env md b fuel a).nodes =
      Node.addr a (addrLabel a) 0 (some true) :: l := by
    simpa [trace_lineage, traceFinal, initState] using hl
  rw [this]
  exact ⟨List.cons_ne_nil _ _, rfl⟩

/-! ## Closed counterexamples computed on concrete environments -/

/-- C1 counterexample: with budget `max_addresses = 2`, expanding the single
transaction of the root adds the two funding addresses `B` and `C` without
any budget check, so the result holds 3 distinct address nodes — more than
the budget. -/
theorem c1_counterexample :
    (addrIds (trace_lineage env1 5 2 20 "R").nodes).dedup = ["R", "B", "C"] ∧
    2 < ((addrIds (trace_lineage env1 5 2 20 "R").nodes).dedup).length := by decide

/-- C3 counterexample: the root's only transaction `t1` fails its detail
fetch.  It contributes no node and no edge, yet `total_transactions` is 1,
not 0: the counter is incremented before the fetch, so it does not count
"only transactions whose detail fetch succeeded". -/
theorem c3_counterexample :
    (trace_lineage env3 5 50 20 "R").stats.total_transactions = 1 ∧
    txIds (trace_lineage env3 5 50 20 "R").nodes = [] ∧
    (trace_lineage env3 5 50 20 "R").edges = [] ∧
    addrIds (trace_lineage env3 5 50 20 "R").nodes = ["R"] := by decide

/-- C4 counterexample: the claim forces every transaction node discovered via
an address at depth d to sit at depth d+1, hence at depth ≥ 1; but the trace
of the spec's own scenario contains the transaction node `T1`, discovered via
the root (depth 0), at depth 0. -/
theorem c4_counterexample :
    (Node.tx "T1" (txLabel "T1") 0 false (some 1) (some 2) (some 3)) ∈
      (trace_lineage envS 5 50 20 "R").nodes ∧
    ∀ n ∈ (trace_lineage envS 5 50 20 "R").nodes,
      n.nid = "T1" → n.ndepth = 0 := by decide

/-- C6 counterexample: `t2` appears in the transaction lists of both `A` and
`B`, and both are dequeued and processed; the claim predicts one output edge
per (transaction, funding address) pair traversed, i.e. edges `t2 → A` and
`t2 → B`.  The code skips an already-visited transaction entirely, so `t2`
carries a single output edge, to `A` alone. -/
theorem c6_counterexample :
    addrIds (traceFinal envAB 5 50 20 "R").nodes = ["R", "A", "B"] ∧
    (traceFinal envAB 5 50 20 "R").queue = [] ∧
    ((traceFinal envAB 5 50 20 "R").edges.filter
      (fun e => e.etype = "output" && e.source = "t2")).map Edge.target = ["A"] := by
  decide

/-- C9 counterexample: with `max_depth = 0` and address budget 1 (a positive
limit the spec requires the core to accept), the loop condition
`len(visited_addresses) < max_addresses` is false from the start, so even the
root's transactions are never attached: the claimed "one transaction node and
its output edge per root transaction" fails although the root lists `T1`. -/
theorem c9_counterexample :
    (envS.addrFetch "R") = some ["T1"] ∧ (envS.txFetch "T1").isSome = true ∧
    (trace_lineage envS 0 1 20 "R").nodes =
      [Node.addr "R" (addrLabel "R") 0 (some true)] ∧
    (trace_lineage envS 0 1 20 "R").edges = [] := by decide

/-! ## Invariant preservation -/

theorem processVin_vinv {md : Nat} {cur : String} {d : Nat} {x : String}
    {st : TraceState} {v : VinEntry} (hdm : d < md) (h : VInv md cur d x st) :
    VInv md cur d x (processVin x d st v) := by
  rcases hp : v.prevout with _ | p
  · simpa [processVin, hp] using h
  rcases ha : p.scriptpubkey_address with _ | a
  · simpa [processVin, hp, ha] using h
  by_cases hm : a ∈ st.visited_addresses
  · simpa [processVin, hp, ha, hm] using h
  have hrec : processVin x d st v = { st with
      visited_addresses := st.visited_addresses ++ [a]
      stats := { st.stats with total_addresses := st.stats.total_addresses + 1 }
      nodes := st.nodes ++ [Node.addr a (addrLabel a) (d + 1) none]
      edges := st.edges ++ [⟨a, x, "input", some p.value⟩]
      queue := st.queue ++ [⟨a, d + 1, "address"⟩] } := by
    simp [processVin, hp, ha, hm]
  rw [hrec]
  exact {
    addr_ids := by simp [h.addr_ids]
    vaddr_nodup := by simp [List.nodup_append, h.vaddr_nodup, hm]
    vtx_nodup := h.vtx_nodup
    tx_sub := by simpa using h.tx_sub
    tx_nodup := by simpa using h.tx_nodup
    out_eq := by simp [h.out_eq]
    total_tx := h.total_tx
    total_addr := by simp [← h.total_addr]
    q_addr := by
      intro it hit
      rcases List.mem_append.mp hit with hold | hnew
      · obtain ⟨h1, h2, h3⟩ := h.q_addr it hold
        exact ⟨h1, h2, hasAddrNode_mono h3⟩
      · rw [List.mem_singleton.mp hnew]
        exact ⟨rfl, hdm, ⟨addrLabel a, none, by simp⟩⟩
    depth_le := by
      intro n hn
      rcases List.mem_append.mp hn with hold | hnew
      · exact h.depth_le n hold
      · rw [List.mem_singleton.mp hnew]; exact hdm
    edge_out := by
      intro e he hty
      rcases List.mem_append.mp he with hold | hnew
      · obtain ⟨dd, h1, h2⟩ := h.edge_out e hold hty
        exact ⟨dd, hasTxNode_mono h1, hasAddrNode_mono h2⟩
      · rw [List.mem_singleton.mp hnew] at hty
        simp at hty
    edge_in := by
      intro e he hty
      rcases List.mem_append.mp he with hold | hnew
      · obtain ⟨dd, h1, h2⟩ := h.edge_in e hold hty
        exact ⟨dd, hasAddrNode_mono h1, hasTxNode_mono h2⟩
      · rw [List.mem_singleton.mp hnew]
        refine ⟨d, ⟨addrLabel a, none, by simp⟩, hasTxNode_mono h.tx_node⟩
    q_sorted := by
      rw [List.pairwise_append]
      refine ⟨h.q_sorted, List.pairwise_singleton _ _, ?_⟩
      intro y hy z hz
      rw [List.mem_singleton.mp hz]
      exact (h.q_band y hy).2
    cb_found := by simpa using h.cb_found
    cb_none := by simpa using h.cb_none
    cb_min := by simpa using h.cb_min
    q_band := by
      intro it hit
      rcases List.mem_append.mp hit with hold | hnew
      · exact h.q_band it hold
      · rw [List.mem_singleton.mp hnew]
        exact ⟨Nat.le_succ d, le_refl _⟩
    cb_le := h.cb_le
    cur_node := hasAddrNode_mono h.cur_node
    d_le := h.d_le
    tx_node := hasTxNode_mono h.tx_node }

theorem addTx_finv {md : Nat} {cur : String} {d : Nat} {st : TraceState}
    {t : String} (h : FInv md cur d st) (hv : t ∉ st.visited_txs)
    (td : Tx) (cb : Bool) (c' : Cache) (S : Stats)
    (hS_ta : S.total_addresses = st.stats.total_addresses)
    (hS_tt : S.total_transactions = st.stats.total_transactions + 1)
    (hfound : S.coinbase_found = true ↔ (cbDepths st.nodes ≠ [] ∨ cb = true))
    (hnone : S.coinbase_distance = none → cbDepths st.nodes = [] ∧ cb = false)
    (hmin : ∀ k, S.coinbase_distance = some k → k ≤ d ∧
      (k ∈ cbDepths st.nodes ∨ (cb = true ∧ k = d)) ∧
      ∀ e ∈ cbDepths st.nodes, k ≤ e) :
    FInv md cur d { st with
      visited_txs := st.visited_txs ++ [t]
      stats := S
      cache := c'
      nodes := st.nodes ++ [Node.tx t (txLabel t) d cb td.block_time td.size td.fee]
      edges := st.edges ++ [⟨t, cur, "output", none⟩] } := by
  have hnid : t ∉ txIds st.nodes := fun hm => hv (h.tx_sub t hm)
  exact {
    addr_ids := by simp [h.addr_ids]
    vaddr_nodup := h.vaddr_nodup
    vtx_nodup := by simp [List.nodup_append, h.vtx_nodup, hv]
    tx_sub := by
      intro i hi
      simp only [txIds_append, txIds_tx] at hi
      rcases List.mem_append.mp hi with hold | hnew
      · exact List.mem_append_left _ (h.tx_sub i hold)
      · exact List.mem_append_right _ hnew
    tx_nodup := by
      simp only [txIds_append, txIds_tx]
      rw [List.nodup_append]
      exact ⟨h.tx_nodup, List.nodup_singleton _, by simpa using hnid⟩
    out_eq := by simp [h.out_eq]
    total_tx := by simp [hS_tt, h.total_tx]
    total_addr := by simp [hS_ta, h.total_addr]
    q_addr := by
      intro it hit
      obtain ⟨h1, h2, h3⟩ := h.q_addr it hit
      exact ⟨h1, h2, hasAddrNode_mono h3⟩
    depth_le := by
      intro n hn
      rcases List.mem_append.mp hn with hold | hnew
      · exact h.depth_le n hold
      · rw [List.mem_singleton.mp hnew]; exact h.d_le
    edge_out := by
      intro e he hty
      rcases List.mem_append.mp he with hold | hnew
      · obtain ⟨dd, h1, h2⟩ := h.edge_out e hold hty
        exact ⟨dd, hasTxNode_mono h1, hasAddrNode_mono h2⟩
      · rw [List.mem_singleton.mp hnew]
        exact ⟨d, ⟨txLabel t, cb, td.block_time, td.size, td.fee, by simp⟩,
          hasAddrNode_mono h.cur_node⟩
    edge_in := by
      intro e he hty
      rcases List.mem_append.mp he with hold | hnew
      · obtain ⟨dd, h1, h2⟩ := h.edge_in e hold hty
        exact ⟨dd, hasAddrNode_mono h1, hasTxNode_mono h2⟩
      · rw [List.mem_singleton.mp hnew] at hty
        simp at hty
    q_sorted := h.q_sorted
    cb_found := by
      rw [hfound]
      cases cb <;> simp [cbDepths_tx]
    cb_none := by
      intro hd
      obtain ⟨he, hcb⟩ := hnone hd
      simp [cbDepths_tx, he, hcb]
    cb_min := by
      intro k hk
      obtain ⟨hkd, hmem, hbound⟩ := hmin k hk
      constructor
      · simp only [cbDepths_append, cbDepths_tx]
        rcases hmem with hold | ⟨hcb, rfl⟩
        · exact List.mem_append_left _ hold
        · exact List.mem_append_right _ (by simp [hcb])
      · intro e he
        simp only [cbDepths_append, cbDepths_tx] at he
        rcases List.mem_append.mp he with hold | hnew
        · exact hbound e hold
        · cases cb with
          | false => simp at hnew
          | true => simp at hnew; omega
    q_band := h.q_band
    cb_le := fun k hk => (hmin k hk).1
    cur_node := hasAddrNode_mono h.cur_node
    d_le := h.d_le }

theorem processTx_finv {env : Env} {md : Nat} {cur : String} {d : Nat}
    {st : TraceState} {t : String} (h : FInv md cur d st) :
    FInv md cur d (processTx env md cur d st t) := by
  by_cases hv : t ∈ st.visited_txs
  · simpa [processTx, hv] using h
  cases hr : (get_transaction env st.cache t).1 with
  | none =>
    have hrec : processTx env md cur d st t = { st with
        visited_txs := st.visited_txs ++ [t]
        stats := { st.stats with
          total_transactions := st.stats.total_transactions + 1 }
        cache := (get_transaction env st.cache t).2.1 } := by
      simp [processTx, hv, hr]
    rw [hrec]
    exact {
      addr_ids := h.addr_ids
      vaddr_nodup := h.vaddr_nodup
      vtx_nodup := by simp [List.nodup_append, h.vtx_nodup, hv]
      tx_sub := fun i hi => List.mem_append_left _ (h.tx_sub i hi)
      tx_nodup := h.tx_nodup
      out_eq := h.out_eq
      total_tx := by simp [← h.total_tx]
      total_addr := h.total_addr
      q_addr := h.q_addr
      depth_le := h.depth_le
      edge_out := h.edge_out
      edge_in := h.edge_in
      q_sorted := h.q_sorted
      cb_found := h.cb_found
      cb_none := h.cb_none
      cb_min := h.cb_min
      q_band := h.q_band
      cb_le := h.cb_le
      cur_node := h.cur_node
      d_le := h.d_le }
  | some td =>
    cases hcb : is_coinbase (some td) with
    | true =>
      rcases hk : st.stats.coinbase_distance with _ | k
      · have hrec : processTx env md cur d st t = { st with
            visited_txs := st.visited_txs ++ [t]
            stats := { st.stats with
              total_transactions := st.stats.total_transactions + 1
              coinbase_found := true
              coinbase_distance := some d }
            cache := (get_transaction env st.cache t).2.1
            nodes := st.nodes ++
              [Node.tx t (txLabel t) d true td.block_time td.size td.fee]
            edges := st.edges ++ [⟨t, cur, "output", none⟩] } := by
          simp [processTx, hv, hr, hcb, hk]
        rw [hrec]
        exact addTx_finv h hv td true _ _ rfl rfl (by simp)
          (by intro hc; simp at hc)
          (by
            intro k hkk
            obtain rfl : d = k := by simpa using hkk
            exact ⟨le_refl d, Or.inr ⟨rfl, rfl⟩,
              fun e he => by rw [h.cb_none hk] at he; simp at he⟩)
      · have hrec : processTx env md cur d st t = { st with
            visited_txs := st.visited_txs ++ [t]
            stats := { st.stats with
              total_transactions := st.stats.total_transactions + 1
              coinbase_found := true
              coinbase_distance := some k }
            cache := (get_transaction env st.cache t).2.1
            nodes := st.nodes ++
              [Node.tx t (txLabel t) d true td.block_time td.size td.fee]
            edges := st.edges ++ [⟨t, cur, "output", none⟩] } := by
          simp [processTx, hv, hr, hcb, hk]
        rw [hrec]
        exact addTx_finv h hv td true _ _ rfl rfl (by simp)
          (by intro hc; simp at hc)
          (by
            intro k' hkk
            obtain rfl : k = k' := by simpa using hkk
            exact ⟨h.cb_le k hk, Or.inl (h.cb_min k hk).1, (h.cb_min k hk).2⟩)
    | false =>
      have hfin : FInv md cur d { st with
          visited_txs := st.visited_txs ++ [t]
          stats := { st.stats with
            total_transactions := st.stats.total_transactions + 1 }
          cache := (get_transaction env st.cache t).2.1
          nodes := st.nodes ++
            [Node.tx t (txLabel t) d false td.block_time td.size td.fee]
          edges := st.edges ++ [⟨t, cur, "output", none⟩] } := by
        refine addTx_finv h hv td false _ _ rfl rfl ?_ ?_ ?_
        · simpa using h.cb_found
        · intro hc; exact ⟨h.cb_none hc, rfl⟩
        · intro k hk
          exact ⟨h.cb_le k hk, Or.inl (h.cb_min k hk).1, (h.cb_min k hk).2⟩
      by_cases hdm : d < md
      · have hrec : processTx env md cur d st t =
            (td.vin.getD []).foldl (processVin t d) { st with
              visited_txs := st.visited_txs ++ [t]
              stats := { st.stats with
                total_transactions := st.stats.total_transactions + 1 }
              cache := (get_transaction env st.cache t).2.1
              nodes := st.nodes ++
                [Node.tx t (txLabel t) d false td.block_time td.size td.fee]
              edges := st.edges ++ [⟨t, cur, "output", none⟩] } := by
          simp [processTx, hv, hr, hcb, hdm]
        rw [hrec]
        have hstart : VInv md cur d t { st with
            visited_txs := st.visited_txs ++ [t]
            stats := { st.stats with
              total_transactions := st.stats.total_transactions + 1 }
            cache := (get_transaction env st.cache t).2.1
            nodes := st.nodes ++
              [Node.tx t (txLabel t) d false td.block_time td.size td.fee]
            edges := st.edges ++ [⟨t, cur, "output", none⟩] } :=
          { hfin with
            tx_node := ⟨txLabel t, false, td.block_time, td.size, td.fee, by simp⟩ }
        exact (foldl_rec (VInv md cur d t) (processVin t d) _
          (fun s a _ hs => processVin_vinv hdm hs) _ hstart).toFInv
      · have hrec : processTx env md cur d st t = { st with
            visited_txs := st.visited_txs ++ [t]
            stats := { st.stats with
              total_transactions := st.stats.total_transactions + 1 }
            cache := (get_transaction env st.cache t).2.1
            nodes := st.nodes ++
              [Node.tx t (txLabel t) d false td.block_time td.size td.fee]
            edges := st.edges ++ [⟨t, cur, "output", none⟩] } := by
          simp [processTx, hv, hr, hcb, hdm]
        rw [hrec]
        exact hfin

theorem step_inv {env : Env} {md : Nat} {st : TraceState} {it : QItem}
    {rest : List QItem} (h : Inv md st) (hq : st.queue = it :: rest) :
    Inv md (processItem env md { st with queue := rest } it) := by
  have hmem : it ∈ st.queue := by rw [hq]; exact List.mem_cons_self _ _
  obtain ⟨hty, hdle, hnode⟩ := h.q_addr it hmem
  have hsorted : (it :: rest).Pairwise (fun x y => x.qdepth ≤ y.qdepth) := by
    rw [← hq]; exact h.q_sorted
  have hrec : processItem env md { st with queue := rest } it =
      (get_address_transactions env st.cache it.qid).1.foldl
        (processTx env md it.qid it.qdepth)
        { st with
          queue := rest
          stats := { st.stats with
            max_depth_reached := max st.stats.max_depth_reached it.qdepth }
          cache := (get_address_transactions env st.cache it.qid).2.1 } := by
    simp [processItem, hty]
  rw [hrec]
  have hF : FInv md it.qid it.qdepth { st with
      queue := rest
      stats := { st.stats with
        max_depth_reached := max st.stats.max_depth_reached it.qdepth }
      cache := (get_address_transactions env st.cache it.qid).2.1 } :=
    { addr_ids := h.addr_ids
      vaddr_nodup := h.vaddr_nodup
      vtx_nodup := h.vtx_nodup
      tx_sub := h.tx_sub
      tx_nodup := h.tx_nodup
      out_eq := h.out_eq
      total_tx := h.total_tx
      total_addr := h.total_addr
      q_addr := fun x hx => h.q_addr x (by rw [hq]; exact List.mem_cons_of_mem _ hx)
      depth_le := h.depth_le
      edge_out := h.edge_out
      edge_in := h.edge_in
      q_sorted := hsorted.of_cons
      cb_found := h.cb_found
      cb_none := h.cb_none
      cb_min := h.cb_min
      q_band := fun x hx =>
        ⟨(List.pairwise_cons.mp hsorted).1 x hx,
         h.q_near x (by rw [hq]; exact List.mem_cons_of_mem _ hx) it hmem⟩
      cb_le := fun k hk => h.cb_q k hk it hmem
      cur_node := hnode
      d_le := hdle }
  have hF' := foldl_rec (FInv md it.qid it.qdepth)
    (processTx env md it.qid it.qdepth)
    (get_address_transactions env st.cache it.qid).1
    (fun s a _ hs => processTx_finv hs) _ hF
  exact
    { toCore := hF'.toCore
      q_near := fun x hx y hy =>
        le_trans (hF'.q_band x hx).2 (Nat.succ_le_succ (hF'.q_band y hy).1)
      cb_q := fun k hk x hx => le_trans (hF'.cb_le k hk) (hF'.q_band x hx).1 }

theorem inv_init (md : Nat) (a : String) : Inv md (initState a) :=
  { addr_ids := rfl
    vaddr_nodup := List.nodup_singleton _
    vtx_nodup := List.nodup_nil
    tx_sub := by intro i hi; simp [initState, txIds] at hi
    tx_nodup := by simp [initState, txIds]
    out_eq := by simp [initState, txIds, outSources]
    total_tx := rfl
    total_addr := rfl
    q_addr := by
      intro it hit
      simp only [initState, List.mem_singleton] at hit
      subst hit
      exact ⟨rfl, Nat.zero_le _, ⟨addrLabel a, some true, by simp [initState]⟩⟩
    depth_le := by
      intro n hn
      simp only [initState, List.mem_singleton] at hn
      subst hn
      simp [Node.ndepth]
    edge_out := by intro e he; simp [initState] at he
    edge_in := by intro e he; simp [initState] at he
    q_sorted := List.pairwise_singleton _ _
    cb_found := by simp [initState, cbDepths]
    cb_none := fun _ => by simp [initState, cbDepths]
    cb_min := by intro k hk; simp [initState] at hk
    q_near := by
      intro x hx y hy
      simp only [initState, List.mem_singleton] at hx hy
      subst hx; subst hy
      simp
    cb_q := by intro k hk; simp [initState] at hk }

theorem traceLoop_inv (env : Env) (md b : Nat) :
    ∀ (fuel : Nat) (st : TraceState), Inv md st →
      Inv md (traceLoop env md b fuel st) := by
  intro fuel
  induction fuel with
  | zero => intro st h; simpa [traceLoop] using h
  | succ n ih =>
    intro st h
    rcases hq : st.queue with _ | ⟨it, rest⟩
    · simpa [traceLoop, hq] using h
    by_cases hb : st.visited_addresses.length < b
    · have hdle := (h.q_addr it (by rw [hq]; exact List.mem_cons_self _ _)).2.1
      have hd : ¬ it.qdepth > md := Nat.not_lt.mpr hdle
      have hrec : traceLoop env md b (n + 1) st =
          traceLoop env md b n (processItem env md { st with queue := rest } it) := by
        simp [traceLoop, hq, hb, hd]
      rw [hrec]
      exact ih _ (step_inv h hq)
    · simpa [traceLoop, hq, hb] using h

theorem traceFinal_inv (env : Env) (md b fuel : Nat) (a : String) :
    Inv md (traceFinal env md b fuel a) :=
  traceLoop_inv env md b fuel (initState a) (inv_init md a)

/-! ## Claim C2: coinbase distance is the minimum discovered origin depth -/

/-- C2: for every trace in which at least one discovered transaction is an
origin (coinbase) transaction (i.e. a coinbase-flagged transaction node was
produced), `stats.coinbase_found` is true and `stats.coinbase_distance` is
`some k` where `k` is the minimum depth among all coinbase-flagged
transaction nodes.  The first-found origin in FIFO order sets the distance
and it is never overwritten, so it equals this minimum. -/
theorem c2_coinbase_distance_min (env : Env) (md b fuel : Nat) (a : String)
    (h : cbDepths (trace_lineage env md b fuel a).nodes ≠ []) :
    (trace_lineage env md b fuel a).stats.coinbase_found = true ∧
    ∃ k, (trace_lineage env md b fuel a).stats.coinbase_distance = some k ∧
      k ∈ cbDepths (trace_lineage env md b fuel a).nodes ∧
      ∀ d ∈ cbDepths (trace_lineage env md b fuel a).nodes, k ≤ d := by
  have hinv := traceFinal_inv env md b fuel a
  have h' : cbDepths (traceFinal env md b fuel a).nodes ≠ [] := h
  refine ⟨hinv.cb_found.mpr h', ?_⟩
  rcases hk : (traceFinal env md b fuel a).stats.coinbase_distance with _ | k
  · exact absurd (hinv.cb_none hk) h'
  · obtain ⟨hmem, hbound⟩ := hinv.cb_min k hk
    exact ⟨k, hk, hmem, hbound⟩

theorem c2_coinbase_distance_min_witness :
    cbDepths (trace_lineage envS 5 50 20 "R").nodes ≠ [] ∧
    ((trace_lineage envS 5 50 20 "R").stats.coinbase_found = true ∧
     ∃ k, (trace_lineage envS 5 50 20 "R").stats.coinbase_distance = some k ∧
       k ∈ cbDepths (trace_lineage envS 5 50 20 "R").nodes ∧
       ∀ d ∈ cbDepths (trace_lineage envS 5 50 20 "R").nodes, k ≤ d) :=
  ⟨by decide, c2_coinbase_distance_min envS 5 50 20 "R" (by decide)⟩

/-! ## Claim C3 (amended): what total_transactions counts -/

/-- C3 amended: `stats.total_transactions` equals the number of transaction
ids marked visited — every transaction id encountered in an address's list is
counted, *including* those whose detail fetch failed (the counter is
incremented before the fetch).  Fetch-failed transactions still contribute no
node (so the transaction-node count is at most the counter, strictly less on
failures), and the rest of the graph is produced. -/
theorem c3_total_transactions_counts_visited (env : Env) (md b fuel : Nat)
    (a : String) :
    (traceFinal env md b fuel a).stats.total_transactions =
      (traceFinal env md b fuel a).visited_txs.length ∧
    (txIds (traceFinal env md b fuel a).nodes).length ≤
      (traceFinal env md b fuel a).stats.total_transactions := by
  have hinv := traceFinal_inv env md b fuel a
  refine ⟨hinv.total_tx, ?_⟩
  rw [hinv.total_tx]
  exact (hinv.tx_nodup.subperm hinv.tx_sub).length_le

/-! ## Claim C4 (amended): depth bookkeeping -/

/-- C4 amended: the root address node has depth 0 and heads the node list;
no node's depth exceeds `max_depth`; every "output" edge joins a transaction
node and the address node that discovered it *at the same depth* (a
transaction node takes the depth of the discovering address, not depth+1);
every "input" edge joins an address node at depth d+1 to the transaction
node at depth d that discovered it. -/
theorem c4_depth_relations (env : Env) (md b fuel : Nat) (a : String) :
    (trace_lineage env md b fuel a).nodes.head? =
      some (Node.addr a (addrLabel a) 0 (some true)) ∧
    (∀ n ∈ (trace_lineage env md b fuel a).nodes, n.ndepth ≤ md) ∧
    (∀ e ∈ (trace_lineage env md b fuel a).edges, e.etype = "output" →
      ∃ d, hasTxNode (trace_lineage env md b fuel a).nodes e.source d ∧
        hasAddrNode (trace_lineage env md b fuel a).nodes e.target d) ∧
    (∀ e ∈ (trace_lineage env md b fuel a).edges, e.etype = "input" →
      ∃ d, hasAddrNode (trace_lineage env md b fuel a).nodes e.source (d + 1) ∧
        hasTxNode (trace_lineage env md b fuel a).nodes e.target d) := by
  have hinv := traceFinal_inv env md b fuel a
  refine ⟨?_, hinv.depth_le, hinv.edge_out, hinv.edge_in⟩
  obtain ⟨l, hl⟩ := traceLoop_nodes_ext env md b fuel (initState a)
  have : (trace_lineage env md b fuel a).nodes =
      Node.addr a (addrLabel a) 0 (some true) :: l := by
    simpa [trace_lineage, traceFinal, initState] using hl
  rw [this]
  rfl

/-! ## Claim C6 (amended): shared ancestor transactions -/

/-- C6 amended: a transaction reached from several addresses is added exactly
once (transaction-node ids are duplicate-free), and the "output" edge sources
coincide, in order, with the transaction-node ids: each transaction node
carries exactly one output edge — to the *first* address that reached it;
an address reaching an already-visited transaction adds no further edge. -/
theorem c6_shared_tx_single_node_single_edge (env : Env) (md b fuel : Nat)
    (a : String) :
    outSources (trace_lineage env md b fuel a).edges =
      txIds (trace_lineage env md b fuel a).nodes ∧
    (txIds (trace_lineage env md b fuel a).nodes).Nodup := by
  have hinv := traceFinal_inv env md b fuel a
  exact ⟨hinv.out_eq, hinv.tx_nodup⟩

/-! ## Growth bound on visited addresses (for claim C1) -/

theorem lookup_mem {β : Type _} {l : List (String × β)} {k : String} {v : β}
    (h : l.lookup k = some v) : (k, v) ∈ l := by
  induction l with
  | nil => simp [List.lookup] at h
  | cons p es ih =>
    rcases p with ⟨x, b⟩
    by_cases hbeq : k = x
    · subst hbeq
      simp [List.lookup] at h
      subst h
      exact List.mem_cons_self _ _
    · have hne : (k == x) = false := beq_eq_false_iff_ne.mpr hbeq
      simp [List.lookup, hne] at h
      exact List.mem_cons_of_mem _ (ih h)

theorem gat_fst {env : Env} {c : Cache} {a : String} (hok : CacheOK env c) :
    (get_address_transactions env c a).1 = (env.addrFetch a).getD [] := by
  cases hc : c.address_cache.lookup a with
  | some v =>
    have h2 := hok.1 _ (lookup_mem hc)
    simp [get_address_transactions, hc, h2]
  | none =>
    cases hf : env.addrFetch a <;> simp [get_address_transactions, hc, hf]

theorem gat_cacheOK {env : Env} {c : Cache} {a : String} (hok : CacheOK env c) :
    CacheOK env (get_address_transactions env c a).2.1 := by
  cases hc : c.address_cache.lookup a with
  | some v => simpa [get_address_transactions, hc] using hok
  | none =>
    cases hf : env.addrFetch a with
    | none => simpa [get_address_transactions, hc, hf] using hok
    | some txs =>
      refine ⟨?_, by simpa [get_address_transactions, hc, hf] using hok.2⟩
      intro p hp
      simp only [get_address_transactions, hc, hf, List.mem_cons] at hp
      rcases hp with rfl | hp
      · exact hf
      · exact hok.1 p hp

theorem gt_fst {env : Env} {c : Cache} {t : String} (hok : CacheOK env c) :
    (get_transaction env c t).1 = env.txFetch t := by
  cases hc : c.tx_cache.lookup t with
  | some v =>
    have h2 := hok.2 _ (lookup_mem hc)
    simp [get_transaction, hc, h2]
  | none =>
    cases hf : env.txFetch t <;> simp [get_transaction, hc, hf]

theorem gt_cacheOK {env : Env} {c : Cache} {t : String} (hok : CacheOK env c) :
    CacheOK env (get_transaction env c t).2.1 := by
  cases hc : c.tx_cache.lookup t with
  | some v => simpa [get_transaction, hc] using hok
  | none =>
    cases hf : env.txFetch t with
    | none => simpa [get_transaction, hc, hf] using hok
    | some tx =>
      refine ⟨by simpa [get_transaction, hc, hf] using hok.1, ?_⟩
      intro p hp
      simp only [get_transaction, hc, hf, List.mem_cons] at hp
      rcases hp with rfl | hp
      · exact hf
      · exact hok.2 p hp

theorem processVin_addr_growth (x : String) (d : Nat) (st : TraceState)
    (v : VinEntry) :
    (processVin x d st v).visited_addresses.length ≤
      st.visited_addresses.length + 1 ∧
    (processVin x d st v).cache = st.cache := by
  rcases hp : v.prevout with _ | p
  · simp [processVin, hp]
  rcases ha : p.scriptpubkey_address with _ | a
  · simp [processVin, hp, ha]
  by_cases hm : a ∈ st.visited_addresses <;> simp [processVin, hp, ha, hm]

theorem vinFold_addr_growth (x : String) (d : Nat) :
    ∀ (l : List VinEntry) (st : TraceState),
      ((l.foldl (processVin x d) st).visited_addresses.length ≤
        st.visited_addresses.length + l.length) ∧
      (l.foldl (processVin x d) st).cache = st.cache := by
  intro l
  induction l with
  | nil => intro st; simp
  | cons v vs ih =>
    intro st
    obtain ⟨h1, h2⟩ := processVin_addr_growth x d st v
    obtain ⟨h3, h4⟩ := ih (processVin x d st v)
    refine ⟨?_, by rw [List.foldl_cons, h4, h2]⟩
    rw [List.foldl_cons]
    calc (vs.foldl (processVin x d) (processVin x d st v)).visited_addresses.length
        ≤ (processVin x d st v).visited_addresses.length + vs.length := h3
      _ ≤ st.visited_addresses.length + 1 + vs.length := by omega
      _ = st.visited_addresses.length + (v :: vs).length := by simp; omega

theorem processTx_growth {env : Env} {md : Nat} {cur : String} {d : Nat}
    {st : TraceState} {t : String} (hok : CacheOK env st.cache) :
    (processTx env md cur d st t).visited_addresses.length ≤
      st.visited_addresses.length + vinCount env t ∧
    CacheOK env (processTx env md cur d st t).cache := by
  by_cases hv : t ∈ st.visited_txs
  · have h1 : processTx env md cur d st t = st := by simp [processTx, hv]
    rw [h1]
    exact ⟨Nat.le_add_right _ _, hok⟩
  · cases hr : (get_transaction env st.cache t).1 with
    | none =>
      refine ⟨by simp [processTx, hv, hr], ?_⟩
      have : (processTx env md cur d st t).cache =
          (get_transaction env st.cache t).2.1 := by simp [processTx, hv, hr]
      rw [this]
      exact gt_cacheOK hok
    | some td =>
      have henv : env.txFetch t = some td := by rw [← gt_fst hok]; exact hr
      have hvc : vinCount env t = (td.vin.getD []).length := by
        simp [vinCount, henv]
      by_cases hg : (!is_coinbase (some td) && decide (d < md)) = true
      · have hrec : processTx env md cur d st t =
            (td.vin.getD []).foldl (processVin t d) { st with
              visited_txs := st.visited_txs ++ [t]
              stats := if is_coinbase (some td) then
                { st.stats with
                  total_transactions := st.stats.total_transactions + 1
                  coinbase_found := true
                  coinbase_distance :=
                    match st.stats.coinbase_distance with
                    | none => some d
                    | some k => some k }
                else { st.stats with
                  total_transactions := st.stats.total_transactions + 1 }
              cache := (get_transaction env st.cache t).2.1
              nodes := st.nodes ++ [Node.tx t (txLabel t) d (is_coinbase (some td))
                td.block_time td.size td.fee]
              edges := st.edges ++ [⟨t, cur, "output", none⟩] } := by
          rcases Bool.and_eq_true _ _ |>.mp hg with ⟨hcb', hdm'⟩
          have hcb : is_coinbase (some td) = false := by
            cases hx : is_coinbase (some td) <;> simp [hx] at hcb' ⊢
          have hdm : d < md := of_decide_eq_true hdm'
          simp [processTx, hv, hr, hcb, hdm]
        rw [hrec]
        obtain ⟨hg1, hg2⟩ := vinFold_addr_growth t d (td.vin.getD []) _
        constructor
        · simpa [hvc] using hg1
        · rw [hg2]
          exact gt_cacheOK hok
      · have h1 : (processTx env md cur d st t).visited_addresses =
            st.visited_addresses := by simp [processTx, hv, hr, hg]
        have h2 : (processTx env md cur d st t).cache =
            (get_transaction env st.cache t).2.1 := by simp [processTx, hv, hr, hg]
        refine ⟨by rw [h1]; omega, by rw [h2]; exact gt_cacheOK hok⟩

theorem txFold_growth {env : Env} {md : Nat} {cur : String} {d : Nat} :
    ∀ (ts : List String) (st : TraceState), CacheOK env st.cache →
      ((ts.foldl (processTx env md cur d) st).visited_addresses.length ≤
        st.visited_addresses.length + (ts.map (vinCount env)).sum) ∧
      CacheOK env ((ts.foldl (processTx env md cur d) st)).cache := by
  intro ts
  induction ts with
  | nil => intro st h; exact ⟨by simp, h⟩
  | cons t ts ih =>
    intro st hok
    obtain ⟨h1, h2⟩ := @processTx_growth env md cur d st t hok
    obtain ⟨h3, h4⟩ := ih (processTx env md cur d st t) h2
    refine ⟨?_, by rw [List.foldl_cons]; exact h4⟩
    rw [List.foldl_cons]
    calc ((ts.foldl (processTx env md cur d) (processTx env md cur d st t))).visited_addresses.length
        ≤ (processTx env md cur d st t).visited_addresses.length +
            (ts.map (vinCount env)).sum := h3
      _ ≤ st.visited_addresses.length + vinCount env t +
            (ts.map (vinCount env)).sum := by omega
      _ = st.visited_addresses.length + ((t :: ts).map (vinCount env)).sum := by
            simp; omega

theorem processItem_growth {env : Env} {md : Nat} {st : TraceState} {it : QItem}
    (hok : CacheOK env st.cache) :
    (processItem env md st it).visited_addresses.length ≤
      st.visited_addresses.length + addrGrowthBound env it.qid ∧
    CacheOK env (processItem env md st it).cache := by
  by_cases hty : it.qtype = "address"
  · have hrec : processItem env md st it =
        (get_address_transactions env st.cache it.qid).1.foldl
          (processTx env md it.qid it.qdepth)
          { st with
            stats := { st.stats with
              max_depth_reached := max st.stats.max_depth_reached it.qdepth }
            cache := (get_address_transactions env st.cache it.qid).2.1 } := by
      simp [processItem, hty]
    rw [hrec]
    have hok' : CacheOK env (get_address_transactions env st.cache it.qid).2.1 :=
      gat_cacheOK hok
    obtain ⟨h1, h2⟩ := @txFold_growth env md it.qid it.qdepth
      (get_address_transactions env st.cache it.qid).1
      { st with
        stats := { st.stats with
          max_depth_reached := max st.stats.max_depth_reached it.qdepth }
        cache := (get_address_transactions env st.cache it.qid).2.1 } hok'
    refine ⟨?_, h2⟩
    have hli : (get_address_transactions env st.cache it.qid).1 =
        (env.addrFetch it.qid).getD [] := gat_fst hok
    calc _ ≤ st.visited_addresses.length +
          (((get_address_transactions env st.cache it.qid).1).map
            (vinCount env)).sum := h1
      _ = st.visited_addresses.length + addrGrowthBound env it.qid := by
          rw [hli]; rfl
  · have : processItem env md st it = { st with
        stats := { st.stats with
          max_depth_reached := max st.stats.max_depth_reached it.qdepth } } := by
      simp [processItem, hty]
    rw [this]
    exact ⟨Nat.le_add_right _ _, hok⟩

theorem traceLoop_growth (env : Env) (md b K : Nat)
    (hK : ∀ a, addrGrowthBound env a ≤ K) :
    ∀ (fuel : Nat) (st : TraceState), CacheOK env st.cache →
      st.visited_addresses.length ≤ b - 1 + K →
      (traceLoop env md b fuel st).visited_addresses.length ≤ b - 1 + K := by
  intro fuel
  induction fuel with
  | zero => intro st _ h2; simpa [traceLoop] using h2
  | succ n ih =>
    intro st h1 h2
    rcases hq : st.queue with _ | ⟨it, rest⟩
    · simpa [traceLoop, hq] using h2
    by_cases hb : st.visited_addresses.length < b
    · by_cases hd : it.qdepth > md
      · have hrec : traceLoop env md b (n + 1) st =
            traceLoop env md b n { st with queue := rest } := by
          simp [traceLoop, hq, hb, hd]
        rw [hrec]
        exact ih _ h1 h2
      · have hrec : traceLoop env md b (n + 1) st =
            traceLoop env md b n
              (processItem env md { st with queue := rest } it) := by
          simp [traceLoop, hq, hb, hd]
        rw [hrec]
        obtain ⟨hg1, hg2⟩ := @processItem_growth env md { st with queue := rest } it h1
        apply ih _ hg2
        have hKb := hK it.qid
        have : ({ st with queue := rest } : TraceState).visited_addresses.length =
            st.visited_addresses.length := rfl
        omega
    · simpa [traceLoop, hq, hb] using h2

/-! ## Claim C1 (amended): how the address budget actually bounds the graph -/

/-- C1 amended: the budget is enforced only at dequeue time — an item is
expanded only while the distinct-address count is strictly below
`max_addresses`, and expanding a transaction's inputs performs **no** budget
check, so the count can overshoot by the additions of a single expansion.
Hence the number of distinct address nodes (the address-id list is
duplicate-free) is bounded by `max_addresses - 1` plus any uniform bound `K`
on the addresses a single dequeued item can add (`addrGrowthBound`), not by
`max_addresses` itself. -/
theorem c1_budget_bound_with_overshoot (env : Env) (md b K fuel : Nat)
    (a : String) (hb : 1 ≤ b) (hK : 1 ≤ K)
    (hbound : ∀ x, addrGrowthBound env x ≤ K) :
    (addrIds (trace_lineage env md b fuel a).nodes).Nodup ∧
    (addrIds (trace_lineage env md b fuel a).nodes).length ≤ b - 1 + K := by
  have hinv := traceFinal_inv env md b fuel a
  constructor
  · show (addrIds (traceFinal env md b fuel a).nodes).Nodup
    rw [hinv.addr_ids]
    exact hinv.vaddr_nodup
  show (addrIds (traceFinal env md b fuel a).nodes).length ≤ b - 1 + K
  rw [hinv.addr_ids]
  apply traceLoop_growth env md b K hbound fuel (initState a)
  · exact ⟨fun p hp => by simp [initState] at hp, fun p hp => by simp [initState] at hp⟩
  · simp [initState]
    omega

theorem c1_budget_bound_with_overshoot_witness :
    1 ≤ 1 ∧ 1 ≤ 1 ∧ (∀ x, addrGrowthBound env0 x ≤ 1) ∧
    ((addrIds (trace_lineage env0 5 1 3 "x").nodes).Nodup ∧
     (addrIds (trace_lineage env0 5 1 3 "x").nodes).length ≤ 1 - 1 + 1) := by
  refine ⟨le_refl 1, le_refl 1, fun x => by simp [addrGrowthBound, env0], ?_⟩
  exact c1_budget_bound_with_overshoot env0 5 1 1 3 "x" (le_refl 1) (le_refl 1)
    (fun x => by simp [addrGrowthBound, env0])

/-! ## Claim C9: traces with max_depth = 0 -/

theorem traceLoop_queue_empty (env : Env) (md b fuel : Nat) (st : TraceState)
    (h : st.queue = []) : traceLoop env md b fuel st = st := by
  cases fuel with
  | zero => rfl
  | succ n => simp [traceLoop, h]

theorem addrIds_cons_tx (i lab : String) (d : Nat) (cb : Bool)
    (ts sz fe : Option Nat) (l : List Node) :
    addrIds (Node.tx i lab d cb ts sz fe :: l) = addrIds l := rfl

theorem addrIds_cons_addr (i lab : String) (d : Nat) (tg : Option Bool)
    (l : List Node) :
    addrIds (Node.addr i lab d tg :: l) = i :: addrIds l := rfl

theorem depthZeroPass_addrIds (env : Env) (cur : String) :
    ∀ (ts seen : List String), addrIds (depthZeroPass env cur ts seen).1 = [] := by
  intro ts
  induction ts with
  | nil => intro seen; simp [depthZeroPass, addrIds]
  | cons t ts ih =>
    intro seen
    by_cases hv : t ∈ seen
    · simp [depthZeroPass, hv, ih]
    · cases hf : env.txFetch t with
      | none => simp [depthZeroPass, hv, hf, ih]
      | some td => simp [depthZeroPass, hv, hf, addrIds_cons_tx, ih]

theorem depthZero_fold (env : Env) (cur : String) :
    ∀ (ts : List String) (st : TraceState),
      (∀ p ∈ st.cache.tx_cache, p.1 ∈ st.visited_txs) →
      ((ts.foldl (processTx env 0 cur 0) st).nodes =
        st.nodes ++ (depthZeroPass env cur ts st.visited_txs).1 ∧
       (ts.foldl (processTx env 0 cur 0) st).edges =
        st.edges ++ (depthZeroPass env cur ts st.visited_txs).2 ∧
       (ts.foldl (processTx env 0 cur 0) st).queue = st.queue) := by
  intro ts
  induction ts with
  | nil => intro st _; simp [depthZeroPass]
  | cons t ts ih =>
    intro st hc
    by_cases hv : t ∈ st.visited_txs
    · rw [List.foldl_cons,
        show processTx env 0 cur 0 st t = st from by simp [processTx, hv]]
      simpa [depthZeroPass, hv] using ih st hc
    · have hmiss : st.cache.tx_cache.lookup t = none := by
        cases hl : st.cache.tx_cache.lookup t with
        | none => rfl
        | some td => exact absurd (hc _ (lookup_mem hl)) hv
      cases hf : env.txFetch t with
      | none =>
        have hrec : processTx env 0 cur 0 st t = { st with
            visited_txs := st.visited_txs ++ [t]
            stats := { st.stats with
              total_transactions := st.stats.total_transactions + 1 } } := by
          simp [processTx, get_transaction, hv, hmiss, hf]
        rw [List.foldl_cons, hrec]
        obtain ⟨h1, h2, h3⟩ := ih { st with
            visited_txs := st.visited_txs ++ [t]
            stats := { st.stats with
              total_transactions := st.stats.total_transactions + 1 } }
          (fun p hp => List.mem_append_left _ (hc p hp))
        rw [h1, h2, h3]
        refine ⟨?_, ?_, rfl⟩ <;> simp [depthZeroPass, hv, hf]
      | some td =>
        have hn : (processTx env 0 cur 0 st t).nodes = st.nodes ++
            [Node.tx t (txLabel t) 0 (is_coinbase (some td))
              td.block_time td.size td.fee] := by
          simp [processTx, get_transaction, hv, hmiss, hf]
        have he : (processTx env 0 cur 0 st t).edges = st.edges ++
            [⟨t, cur, "output", none⟩] := by
          simp [processTx, get_transaction, hv, hmiss, hf]
        have hq : (processTx env 0 cur 0 st t).queue = st.queue := by
          simp [processTx, get_transaction, hv, hmiss, hf]
        have hvt : (processTx env 0 cur 0 st t).visited_txs =
            st.visited_txs ++ [t] := by
          simp [processTx, get_transaction, hv, hmiss, hf]
        have hcache : (processTx env 0 cur 0 st t).cache.tx_cache =
            (t, td) :: st.cache.tx_cache := by
          simp [processTx, get_transaction, hv, hmiss, hf]
        rw [List.foldl_cons]
        obtain ⟨h1, h2, h3⟩ := ih (processTx env 0 cur 0 st t) (by
          intro p hp
          rw [hcache] at hp
          rw [hvt]
          rcases List.mem_cons.mp hp with rfl | hp
          · exact List.mem_append_right _ (List.mem_singleton.mpr rfl)
          · exact List.mem_append_left _ (hc p hp))
        rw [h1, h2, h3, hn, he, hq, hvt]
        simp [depthZeroPass, hv, hf]

/-- C9 amended: with `max_depth = 0`, an address budget of at least 2 (so the
loop condition lets the root item itself be processed) and at least one loop
iteration of fuel, the result is exactly the root address node followed by
one transaction node and one output edge for each *distinct* transaction id
in the root's list *whose detail fetch succeeds* (in list order), and no
further address node is added no matter what input data the transactions
carry. -/
theorem c9_depth_zero (env : Env) (b fuel : Nat) (a : String)
    (hb : 2 ≤ b) (hf : 1 ≤ fuel) :
    (trace_lineage env 0 b fuel a).nodes =
      Node.addr a (addrLabel a) 0 (some true) ::
        (depthZeroPass env a ((env.addrFetch a).getD []) []).1 ∧
    (trace_lineage env 0 b fuel a).edges =
      (depthZeroPass env a ((env.addrFetch a).getD []) []).2 ∧
    addrIds (trace_lineage env 0 b fuel a).nodes = [a] := by
  obtain ⟨n, rfl⟩ : ∃ n, fuel = n + 1 := ⟨fuel - 1, by omega⟩
  have hb' : 1 < b := by omega
  have hstep : traceFinal env 0 b (n + 1) a =
      traceLoop env 0 b n
        (processItem env 0 { initState a with queue := [] } ⟨a, 0, "address"⟩) := by
    simp [traceFinal, traceLoop, initState, hb']
  have hitem : processItem env 0 { initState a with queue := [] } ⟨a, 0, "address"⟩ =
      ((get_address_transactions env (initState a).cache a).1).foldl
        (processTx env 0 a 0)
        { initState a with
          queue := []
          cache := (get_address_transactions env (initState a).cache a).2.1 } := by
    simp [processItem, initState]
  have hcache0 : ((get_address_transactions env (initState a).cache a).2.1).tx_cache
      = [] := by
    cases hf2 : env.addrFetch a <;>
      simp [get_address_transactions, initState, List.lookup, hf2]
  have hli : (get_address_transactions env (initState a).cache a).1 =
      (env.addrFetch a).getD [] := by
    cases hf2 : env.addrFetch a <;>
      simp [get_address_transactions, initState, List.lookup, hf2]
  obtain ⟨h1, h2, h3⟩ := depthZero_fold env a
    ((get_address_transactions env (initState a).cache a).1)
    { initState a with
      queue := []
      cache := (get_address_transactions env (initState a).cache a).2.1 }
    (by intro p hp; rw [hcache0] at hp; simp at hp)
  have hfold_res := traceLoop_queue_empty env 0 b n _ (by rw [h3])
  have hfinal : traceFinal env 0 b (n + 1) a =
      ((get_address_transactions env (initState a).cache a).1).foldl
        (processTx env 0 a 0)
        { initState a with
          queue := []
          cache := (get_address_transactions env (initState a).cache a).2.1 } := by
    rw [hstep, hitem, hfold_res]
  have hnodes : (trace_lineage env 0 b (n + 1) a).nodes =
      Node.addr a (addrLabel a) 0 (some true) ::
        (depthZeroPass env a ((env.addrFetch a).getD []) []).1 := by
    show (traceFinal env 0 b (n + 1) a).nodes = _
    rw [hfinal, h1, hli]
    simp [initState]
  refine ⟨hnodes, ?_, ?_⟩
  · show (traceFinal env 0 b (n + 1) a).edges = _
    rw [hfinal, h2, hli]
    simp [initState]
  · rw [hnodes, addrIds_cons_addr, depthZeroPass_addrIds]

theorem c9_depth_zero_witness :
    2 ≤ 50 ∧ 1 ≤ 20 ∧
    ((trace_lineage envS 0 50 20 "R").nodes =
      Node.addr "R" (addrLabel "R") 0 (some true) ::
        (depthZeroPass envS "R" ((envS.addrFetch "R").getD []) []).1 ∧
    (trace_lineage envS 0 50 20 "R").edges =
      (depthZeroPass envS "R" ((envS.addrFetch "R").getD []) []).2 ∧
    addrIds (trace_lineage envS 0 50 20 "R").nodes = ["R"]) :=
  ⟨by omega, by omega, c9_depth_zero envS 50 20 "R" (by omega) (by omega)⟩

end CryptoTrace
